import Mathlib

/-!
Shallow embedding of `src/main.cpp`: three matchers counting overlapping
occurrences of the 3-bit pattern 0b110 in a bitstream delivered as bytes,
MSB first.  Each C++ class becomes a state structure plus a
state-passing function; machine integers become `Nat` with explicit
masking where the C++ types truncate.
-/

set_option maxRecDepth 100000

/-- The shared pattern constant of class `Method`: `pattern{0b110}`. -/
def pattern : Nat := 6

namespace StateMachine

/-- Mutable fields of class `StateMachine`: `pos` and the inherited
`total_count`. -/
structure State where
  pos : Nat
  total_count : Nat
deriving DecidableEq, Repr

/-- Fresh `StateMachine`: `pos{0}`, `total_count{0}`. -/
def init : State := ⟨0, 0⟩

/-- One iteration of the `switch` in `StateMachine::pattern_match`,
acting on the pair (pos, counter); `bit` is the truth value of
`sample & (1 << i)`.  The final branch is the `default:` (commented
"bug") case, which does nothing. -/
def bitStep : Nat × Nat → Bool → Nat × Nat
  | (pos, counter), bit =>
    if pos = 0 ∨ pos = 1 then
      if bit then (pos + 1, counter) else (0, counter)
    else if pos = 2 then
      if bit then (pos, counter) else (0, counter + 1)
    else (pos, counter)

/-- The loop `for (i = 7; i >= 0; i--)` of `StateMachine::pattern_match`
over the bits of `sample` (an `unsigned char`, hence the `% 256`),
threading `(pos, counter)` from `(pos, 0)`. -/
def run (pos sample : Nat) : Nat × Nat :=
  let s := sample % 256
  ([7, 6, 5, 4, 3, 2, 1, 0] : List Nat).foldl
    (fun pc i => bitStep pc (s.testBit i)) (pos, 0)

/-- `StateMachine::pattern_match`: run the bit loop, then
`total_count += counter; return counter`. -/
def pattern_match (st : State) (sample : Nat) : State × Nat :=
  let r := run st.pos sample
  (⟨r.1, st.total_count + r.2⟩, r.2)

end StateMachine

namespace SlidingBitmask

/-- Mutable fields of class `SlidingBitmask`: `prev` and the inherited
`total_count`. -/
structure State where
  prev : Nat
  total_count : Nat
deriving DecidableEq, Repr

/-- Fresh `SlidingBitmask`: `prev{0}`, `total_count{0}`. -/
def init : State := ⟨0, 0⟩

/-- The counter computed by `SlidingBitmask::pattern_match`: build
`combined_samples = (prev << 8) | sample` (an `unsigned short`, hence
the `% 65536`), then test the eight 3-bit windows
`(combined_samples >> i) & 0x07` against `pattern` for `i = 7 .. 0`. -/
def count (prev sample : Nat) : Nat :=
  let s := sample % 256
  let combined := ((prev <<< 8) ||| s) % 65536
  ([7, 6, 5, 4, 3, 2, 1, 0] : List Nat).foldl
    (fun c i => if (combined >>> i) &&& 7 = pattern then c + 1 else c) 0

/-- `SlidingBitmask::pattern_match`: compute the window counter, then
`total_count += counter; prev = sample; return counter`. -/
def pattern_match (st : State) (sample : Nat) : State × Nat :=
  let counter := count st.prev sample
  (⟨sample % 256, st.total_count + counter⟩, counter)

end SlidingBitmask

namespace Lut

/-- Mutable fields of class `Lut` apart from the table: `prev` and the
inherited `total_count`. -/
structure State where
  prev : Nat
  total_count : Nat
deriving DecidableEq, Repr

/-- Fresh `Lut`: `prev{0}`, `total_count{0}`. -/
def init : State := ⟨0, 0⟩

/-- The body of the `Lut::Lut` construction loop for one index:
a fresh `SlidingBitmask` is fed `combined_samples >> 8` and then
`combined_samples & 0xFF`, and the two returned counts are summed. -/
def lutEntry (combined : Nat) : Nat :=
  let r1 := SlidingBitmask.pattern_match SlidingBitmask.init (combined >>> 8)
  let r2 := SlidingBitmask.pattern_match r1.1 (combined &&& 0xFF)
  r1.2 + r2.2

/-- The array `count_lut[1024]` as filled by the `Lut::Lut` loop over
`combined_samples = 0 .. 1023`. -/
def count_lut : List Nat := (List.range 1024).map lutEntry

/-- The counter looked up by `Lut::pattern_match`: index
`combined_samples = ((prev << 8) | sample) & 0x3FF` into `count_lut`. -/
def count (prev sample : Nat) : Nat :=
  count_lut.getD (((prev <<< 8) ||| (sample % 256)) &&& 0x3FF) 0

/-- `Lut::pattern_match`: look the counter up, then
`total_count += counter; prev = sample; return counter`. -/
def pattern_match (st : State) (sample : Nat) : State × Nat :=
  let counter := count st.prev sample
  (⟨sample % 256, st.total_count + counter⟩, counter)

end Lut

/-- State of a fresh `StateMachine` after being fed `bytes`, one byte per
`pattern_match` call, in order. -/
def runSM (bytes : List Nat) : StateMachine.State :=
  bytes.foldl (fun st b => (StateMachine.pattern_match st b).1) StateMachine.init

/-- State of a fresh `SlidingBitmask` after being fed `bytes`, one byte
per `pattern_match` call, in order. -/
def runSB (bytes : List Nat) : SlidingBitmask.State :=
  bytes.foldl (fun st b => (SlidingBitmask.pattern_match st b).1) SlidingBitmask.init

/-- State of a fresh `Lut` after being fed `bytes`, one byte per
`pattern_match` call, in order. -/
def runLut (bytes : List Nat) : Lut.State :=
  bytes.foldl (fun st b => (Lut.pattern_match st b).1) Lut.init

/-- Count returned by `StateMachine::pattern_match` from position `p`
on byte `s` (independent of the running total). -/
def smCount (p s : Nat) : Nat := (StateMachine.run p s).2

/-- Position after `StateMachine::pattern_match` from position `p` on
byte `s`. -/
def smPos (p s : Nat) : Nat := (StateMachine.run p s).1

/-- Count returned by `SlidingBitmask::pattern_match` with carried byte
`p` on byte `s`. -/
def sbCount (p s : Nat) : Nat := SlidingBitmask.count p s

/-- Count returned by `Lut::pattern_match` with carried byte `p` on
byte `s`. -/
def lutCount (p s : Nat) : Nat := Lut.count p s

/-- The `StateMachine` position determined by the low two bits of the
last byte processed: `pos` is the length of the trailing run of 1-bits,
capped at 2. -/
def posOf : Nat → Nat
  | 1 => 1
  | 3 => 2
  | _ => 0

/-- The eight 3-bit windows of the 10-bit combined value `c` whose value
equals `pattern`, counted directly. -/
def windowCount (c : Nat) : Nat :=
  (List.range 8).countP (fun i => (c >>> i) &&& 7 == pattern)

/-- The transition relation of §4.2 of the spec, one bit at a time:
from state 0 or 1 a 1-bit advances by one and a 0-bit resets to 0;
from state 2 a 1-bit stays at 2 and a 0-bit records a match (second
component) and resets to 0. -/
def specTrans : Nat → Bool → Nat × Nat
  | 0, b => if b then (1, 0) else (0, 0)
  | 1, b => if b then (2, 0) else (0, 0)
  | _, b => if b then (2, 0) else (0, 1)

/-- Eight applications of `specTrans`, visiting the bits of `s` from
bit 7 down to bit 0; returns the final state and the number of matches
recorded. -/
def specByte (pos : Nat) (s : Nat) : Nat × Nat :=
  let a7 := specTrans pos (s.testBit 7)
  let a6 := specTrans a7.1 (s.testBit 6)
  let a5 := specTrans a6.1 (s.testBit 5)
  let a4 := specTrans a5.1 (s.testBit 4)
  let a3 := specTrans a4.1 (s.testBit 3)
  let a2 := specTrans a3.1 (s.testBit 2)
  let a1 := specTrans a2.1 (s.testBit 1)
  let a0 := specTrans a1.1 (s.testBit 0)
  (a0.1, a7.2 + a6.2 + a5.2 + a4.2 + a3.2 + a2.2 + a1.2 + a0.2)

theorem sm_pm_eq (st : StateMachine.State) (s : Nat) :
    StateMachine.pattern_match st s =
      (⟨smPos st.pos s, st.total_count + smCount st.pos s⟩, smCount st.pos s) := rfl

theorem sb_pm_eq (st : SlidingBitmask.State) (s : Nat) :
    SlidingBitmask.pattern_match st s =
      (⟨s % 256, st.total_count + sbCount st.prev s⟩, sbCount st.prev s) := rfl

theorem lut_pm_eq (st : Lut.State) (s : Nat) :
    Lut.pattern_match st s =
      (⟨s % 256, st.total_count + lutCount st.prev s⟩, lutCount st.prev s) := rfl

theorem sm_pm_count (st : StateMachine.State) (s : Nat) :
    (StateMachine.pattern_match st s).2 = smCount st.pos s := by
  rw [sm_pm_eq]

theorem sb_pm_count (st : SlidingBitmask.State) (s : Nat) :
    (SlidingBitmask.pattern_match st s).2 = sbCount st.prev s := by
  rw [sb_pm_eq]

theorem lut_pm_count (st : Lut.State) (s : Nat) :
    (Lut.pattern_match st s).2 = lutCount st.prev s := by
  rw [lut_pm_eq]

/-- A 3-bit window at offset at most 7 only reads the low 10 bits of the
combined value. -/
theorem win_mod (a i : Nat) (hi : i ≤ 7) :
    ((a % 1024) >>> i) &&& 7 = (a >>> i) &&& 7 := by
  have h7 : (7 : Nat) = 2 ^ 3 - 1 := rfl
  rw [Nat.shiftRight_eq_div_pow, Nat.shiftRight_eq_div_pow, h7,
    Nat.and_pow_two_sub_one_eq_mod, Nat.and_pow_two_sub_one_eq_mod]
  have hpow : i + (10 - i) = 10 := by omega
  have h1024 : (1024 : Nat) = 2 ^ i * 2 ^ (10 - i) := by
    rw [← pow_add, hpow]
    norm_num
  rw [h1024, Nat.mod_mul_right_div_self]
  exact Nat.mod_mod_of_dvd _ (pow_dvd_pow 2 (by omega))

/-- `(p << 8) | t` is `p * 256 + t` when `t` fits in a byte. -/
theorem or_eq_add (p t : Nat) (ht : t < 256) : (p <<< 8) ||| t = p * 256 + t := by
  rw [Nat.shiftLeft_eq]
  have ht' : t < 2 ^ 8 := ht
  have h := Nat.mul_add_lt_is_or ht' p
  rw [Nat.mul_comm p (2 ^ 8)]
  exact h.symm

theorem count_foldl_congr (a b : Nat) (l : List Nat)
    (h : ∀ i ∈ l, (a >>> i) &&& 7 = (b >>> i) &&& 7) :
    ∀ c : Nat,
      l.foldl (fun c i => if (a >>> i) &&& 7 = pattern then c + 1 else c) c =
        l.foldl (fun c i => if (b >>> i) &&& 7 = pattern then c + 1 else c) c := by
  induction l with
  | nil => intro c; rfl
  | cons x xs ih =>
    intro c
    simp only [List.foldl_cons]
    rw [h x (List.mem_cons_self x xs)]
    exact ih (fun i hi => h i (List.mem_cons_of_mem x hi)) _

/-- The sliding-bitmask count depends on the carried byte only through
its low two bits. -/
theorem sbCount_mod4 (p s : Nat) : sbCount p s = sbCount (p % 4) s := by
  unfold sbCount SlidingBitmask.count
  simp only
  apply count_foldl_congr
  intro i hi
  have hi7 : i ≤ 7 := by
    simp only [List.mem_cons, List.not_mem_nil, or_false] at hi
    omega
  have ht : s % 256 < 256 := Nat.mod_lt _ (by omega)
  rw [or_eq_add p _ ht, or_eq_add (p % 4) _ ht]
  have hmod : (p * 256 + s % 256) % 65536 % 1024 =
      (p % 4 * 256 + s % 256) % 65536 % 1024 := by omega
  rw [← win_mod _ i hi7, hmod, win_mod _ i hi7]


/-- Per-byte agreement of the state machine and the sliding bitmask,
for the four canonical carry classes. -/
theorem step_sm_sb : ∀ q < 4, ∀ s < 256,
    smCount (posOf q) s = sbCount q s ∧ smPos (posOf q) s = posOf (s % 4) := by decide

/-- The table construction agrees with the sliding count on every
in-range index split into carry bits and byte. -/
theorem lut_entry_sb : ∀ q < 4, ∀ t < 256,
    Lut.lutEntry (q * 256 + t) = sbCount q t := by decide

/-- Reading `count_lut` at an in-range index gives the constructed
entry. -/
theorem count_lut_getD (c : Nat) (hc : c < 1024) :
    Lut.count_lut.getD c 0 = Lut.lutEntry c := by
  have hlen : c < Lut.count_lut.length := by simpa [Lut.count_lut] using hc
  rw [List.getD_eq_getElem?_getD, List.getElem?_eq_getElem hlen]
  simp [Lut.count_lut]

/-- `((p << 8) | t) & 0x3FF` keeps two carry bits and the byte. -/
theorem lut_combined (p s : Nat) :
    ((p <<< 8) ||| (s % 256)) &&& 1023 = p % 4 * 256 + s % 256 := by
  rw [or_eq_add p _ (Nat.mod_lt _ (by omega))]
  have h1023 : (1023 : Nat) = 2 ^ 10 - 1 := rfl
  rw [h1023, Nat.and_pow_two_sub_one_eq_mod]
  have h1024 : (2 : Nat) ^ 10 = 1024 := by norm_num
  rw [h1024]
  omega

/-- The table lookup agrees with the sliding count on every byte pair. -/
theorem lutCount_eq_sb (p s : Nat) (hs : s < 256) : lutCount p s = sbCount p s := by
  have e1 : lutCount p s = Lut.count_lut.getD (((p <<< 8) ||| (s % 256)) &&& 1023) 0 := rfl
  rw [e1, lut_combined p s]
  have hlt : p % 4 * 256 + s % 256 < 1024 := by omega
  rw [count_lut_getD _ hlt, lut_entry_sb (p % 4) (by omega) (s % 256) (by omega),
    Nat.mod_eq_of_lt hs]
  exact (sbCount_mod4 p s).symm

/-- Relation maintained between the three matcher states over any valid
byte sequence: the carried bytes agree, the automaton position is
determined by the low two bits of the carried byte, and the running
totals agree. -/
theorem run_inv : ∀ bytes : List Nat, (∀ b ∈ bytes, b < 256) →
    (runSB bytes).prev < 256 ∧
    (runLut bytes).prev = (runSB bytes).prev ∧
    (runSM bytes).pos = posOf ((runSB bytes).prev % 4) ∧
    (runSB bytes).total_count = (runSM bytes).total_count ∧
    (runLut bytes).total_count = (runSM bytes).total_count := by
  intro bytes
  induction bytes using List.reverseRecOn with
  | nil => exact fun _ => ⟨by decide, rfl, rfl, rfl, rfl⟩
  | append_singleton l b ih =>
    intro h
    have hb : b < 256 := h b (by simp)
    have hl : ∀ x ∈ l, x < 256 := fun x hx => h x (by simp [hx])
    obtain ⟨h1, h2, h3, h4, h5⟩ := ih hl
    have eSM : runSM (l ++ [b]) = (StateMachine.pattern_match (runSM l) b).1 := by
      simp [runSM]
    have eSB : runSB (l ++ [b]) = (SlidingBitmask.pattern_match (runSB l) b).1 := by
      simp [runSB]
    have eLut : runLut (l ++ [b]) = (Lut.pattern_match (runLut l) b).1 := by
      simp [runLut]
    rw [eSM, eSB, eLut, sm_pm_eq, sb_pm_eq, lut_pm_eq]
    dsimp only
    have hq : (runSB l).prev % 4 < 4 := Nat.mod_lt _ (by omega)
    obtain ⟨hc, hp⟩ := step_sm_sb ((runSB l).prev % 4) hq b hb
    refine ⟨by omega, rfl, ?_, ?_, ?_⟩
    · rw [h3, hp, Nat.mod_eq_of_lt hb]
    · rw [h4, h3, hc, sbCount_mod4]
    · rw [h5, h2, h3, hc, lutCount_eq_sb _ _ hb, sbCount_mod4]

/-- Bitwise agreement of the embedded loop with the transition relation
of §4.2, over the reachable positions. -/
theorem spec_byte_eq : ∀ p < 3, ∀ s < 256,
    smPos p s = (specByte p s).1 ∧ smCount p s = (specByte p s).2 := by decide

/-- One byte keeps the automaton position inside `{0, 1, 2}`. -/
theorem smPos_lt3 : ∀ p < 3, ∀ s < 256, smPos p s < 3 := by decide

/-- A carried `...11` byte followed by a byte whose top bit is 0 always
yields at least one sliding-window match. -/
theorem sb3_ge1 : ∀ s < 128, 1 ≤ sbCount 3 s := by decide

/-- Every table entry equals the direct window count of its index. -/
theorem lutEntry_window : ∀ c < 1024, Lut.lutEntry c = windowCount c := by decide

theorem runSM_append (l : List Nat) (b : Nat) :
    runSM (l ++ [b]) = (StateMachine.pattern_match (runSM l) b).1 := by simp [runSM]

theorem runSB_append (l : List Nat) (b : Nat) :
    runSB (l ++ [b]) = (SlidingBitmask.pattern_match (runSB l) b).1 := by simp [runSB]

theorem runLut_append (l : List Nat) (b : Nat) :
    runLut (l ++ [b]) = (Lut.pattern_match (runLut l) b).1 := by simp [runLut]

theorem sm_ff_steady : ∀ n t : Nat,
    List.foldl (fun st b => (StateMachine.pattern_match st b).1) ⟨2, t⟩
      (List.replicate n 255) = ⟨2, t⟩ := by
  intro n
  induction n with
  | zero => intro t; rfl
  | succ m ih =>
    intro t
    rw [List.replicate_succ, List.foldl_cons]
    have h1 : smPos 2 255 = 2 := by decide
    have h2 : smCount 2 255 = 0 := by decide
    have e : (StateMachine.pattern_match ⟨2, t⟩ 255).1 = (⟨2, t⟩ : StateMachine.State) := by
      rw [sm_pm_eq]
      dsimp only
      rw [h1, h2, Nat.add_zero]
    rw [e]
    exact ih t

theorem sb_ff_steady : ∀ n t : Nat,
    List.foldl (fun st b => (SlidingBitmask.pattern_match st b).1) ⟨255, t⟩
      (List.replicate n 255) = ⟨255, t⟩ := by
  intro n
  induction n with
  | zero => intro t; rfl
  | succ m ih =>
    intro t
    rw [List.replicate_succ, List.foldl_cons]
    have h1 : (255 : Nat) % 256 = 255 := rfl
    have h2 : sbCount 255 255 = 0 := by decide
    have e : (SlidingBitmask.pattern_match ⟨255, t⟩ 255).1 =
        (⟨255, t⟩ : SlidingBitmask.State) := by
      rw [sb_pm_eq]
      dsimp only
      rw [h1, h2, Nat.add_zero]
    rw [e]
    exact ih t

theorem lut_ff_steady : ∀ n t : Nat,
    List.foldl (fun st b => (Lut.pattern_match st b).1) ⟨255, t⟩
      (List.replicate n 255) = ⟨255, t⟩ := by
  intro n
  induction n with
  | zero => intro t; rfl
  | succ m ih =>
    intro t
    rw [List.replicate_succ, List.foldl_cons]
    have h1 : (255 : Nat) % 256 = 255 := rfl
    have h2 : lutCount 255 255 = 0 := by decide
    have e : (Lut.pattern_match ⟨255, t⟩ 255).1 = (⟨255, t⟩ : Lut.State) := by
      rw [lut_pm_eq]
      dsimp only
      rw [h1, h2, Nat.add_zero]
    rw [e]
    exact ih t

theorem sm_total_mono : ∀ (l : List Nat) (st : StateMachine.State),
    st.total_count ≤
      (List.foldl (fun st b => (StateMachine.pattern_match st b).1) st l).total_count := by
  intro l
  induction l with
  | nil => intro st; exact Nat.le_refl _
  | cons x xs ih =>
    intro st
    rw [List.foldl_cons]
    refine Nat.le_trans ?_ (ih ((StateMachine.pattern_match st x).1))
    rw [sm_pm_eq]
    exact Nat.le_add_right _ _

theorem sb_total_mono : ∀ (l : List Nat) (st : SlidingBitmask.State),
    st.total_count ≤
      (List.foldl (fun st b => (SlidingBitmask.pattern_match st b).1) st l).total_count := by
  intro l
  induction l with
  | nil => intro st; exact Nat.le_refl _
  | cons x xs ih =>
    intro st
    rw [List.foldl_cons]
    refine Nat.le_trans ?_ (ih ((SlidingBitmask.pattern_match st x).1))
    rw [sb_pm_eq]
    exact Nat.le_add_right _ _

theorem lut_total_mono : ∀ (l : List Nat) (st : Lut.State),
    st.total_count ≤
      (List.foldl (fun st b => (Lut.pattern_match st b).1) st l).total_count := by
  intro l
  induction l with
  | nil => intro st; exact Nat.le_refl _
  | cons x xs ih =>
    intro st
    rw [List.foldl_cons]
    refine Nat.le_trans ?_ (ih ((Lut.pattern_match st x).1))
    rw [lut_pm_eq]
    exact Nat.le_add_right _ _

/-- C1: for every finite byte sequence fed, one byte per `pattern_match`
call and in the same order, to a fresh `StateMachine`, a fresh
`SlidingBitmask` and a fresh `Lut`, the three running totals are equal
after every prefix length, not only at the end. -/
theorem totals_equal_all_takes : ∀ bytes : List Nat, (∀ b ∈ bytes, b < 256) → ∀ n : Nat,
    (runSB (bytes.take n)).total_count = (runSM (bytes.take n)).total_count ∧
    (runLut (bytes.take n)).total_count = (runSM (bytes.take n)).total_count := by
  intro bytes h n
  have h' : ∀ b ∈ bytes.take n, b < 256 := fun b hb => h b (List.take_subset n bytes hb)
  obtain ⟨-, -, -, h4, h5⟩ := run_inv (bytes.take n) h'
  exact ⟨h4, h5⟩

theorem totals_equal_all_takes_witness :
    (runSB (([0xC0, 0xFF, 0x06] : List Nat).take 2)).total_count =
      (runSM (([0xC0, 0xFF, 0x06] : List Nat).take 2)).total_count ∧
    (runLut (([0xC0, 0xFF, 0x06] : List Nat).take 2)).total_count =
      (runSM (([0xC0, 0xFF, 0x06] : List Nat).take 2)).total_count :=
  totals_equal_all_takes [0xC0, 0xFF, 0x06] (by decide) 2

/-- C2: for every index in 0..1023, `count_lut` at that index equals the
count obtained by feeding a fresh `SlidingBitmask` the bytes
`combined >> 8` then `combined & 0xFF`, which is the number of 3-bit
windows of the 10-bit value equal to the pattern. -/
theorem lut_table_consistent : ∀ c < 1024,
    Lut.count_lut.getD c 0 =
      (let r1 := SlidingBitmask.pattern_match SlidingBitmask.init (c >>> 8)
       let r2 := SlidingBitmask.pattern_match r1.1 (c &&& 0xFF)
       r1.2 + r2.2) ∧
    Lut.count_lut.getD c 0 = windowCount c := by
  intro c hc
  refine ⟨?_, ?_⟩
  · rw [count_lut_getD c hc]
    rfl
  · rw [count_lut_getD c hc]
    exact lutEntry_window c hc

theorem lut_table_consistent_witness :
    (Lut.count_lut.getD 774 0 =
      (let r1 := SlidingBitmask.pattern_match SlidingBitmask.init (774 >>> 8)
       let r2 := SlidingBitmask.pattern_match r1.1 (774 &&& 0xFF)
       r1.2 + r2.2) ∧
    Lut.count_lut.getD 774 0 = windowCount 774) :=
  lut_table_consistent 774 (by decide)

/-- C3: one `StateMachine::pattern_match` call applies the 3-state
transition relation of the spec exactly 8 times, from bit 7 down to
bit 0, returns the number of matches recorded, and persists both the
final state and the accumulated total. -/
theorem sm_follows_spec_transition : ∀ (st : StateMachine.State) (s : Nat),
    st.pos < 3 → s < 256 →
    StateMachine.pattern_match st s =
      (⟨(specByte st.pos s).1, st.total_count + (specByte st.pos s).2⟩,
        (specByte st.pos s).2) := by
  intro st s hp hs
  obtain ⟨e1, e2⟩ := spec_byte_eq st.pos hp s hs
  rw [sm_pm_eq, e1, e2]

theorem sm_follows_spec_transition_witness :
    StateMachine.pattern_match ⟨2, 5⟩ 0xC0 = (⟨0, 6⟩, 1) :=
  (sm_follows_spec_transition ⟨2, 5⟩ 0xC0 (by decide) (by decide)).trans (by decide)

/-- C4: the count returned by `SlidingBitmask::pattern_match` depends
only on the low 2 bits of the carried previous byte and on the sample. -/
theorem sb_count_two_carry_bits : ∀ p1 p2 s t1 t2 : Nat,
    p1 < 256 → p2 < 256 → s < 256 → p1 &&& 3 = p2 &&& 3 →
    (SlidingBitmask.pattern_match ⟨p1, t1⟩ s).2 =
      (SlidingBitmask.pattern_match ⟨p2, t2⟩ s).2 := by
  intro p1 p2 s t1 t2 _ _ _ h
  show sbCount p1 s = sbCount p2 s
  have e3 : (3 : Nat) = 2 ^ 2 - 1 := rfl
  rw [e3, Nat.and_pow_two_sub_one_eq_mod, Nat.and_pow_two_sub_one_eq_mod] at h
  norm_num at h
  rw [sbCount_mod4 p1 s, sbCount_mod4 p2 s, h]

theorem sb_count_two_carry_bits_witness :
    (SlidingBitmask.pattern_match ⟨6, 0⟩ 0xC0).2 =
      (SlidingBitmask.pattern_match ⟨2, 9⟩ 0xC0).2 :=
  sb_count_two_carry_bits 6 2 0xC0 0 9 (by decide) (by decide) (by decide) (by decide)

/-- C5: after any valid byte sequence whose last byte ends in two 1
bits, a next byte with most significant bit 0 makes all three matchers
return a count of at least 1. -/
theorem boundary_match_detected : ∀ bytes : List Nat, (∀ b ∈ bytes, b < 256) →
    ∀ b1 b2 : Nat, b1 < 256 → b1 &&& 3 = 3 → b2 < 128 →
    1 ≤ (StateMachine.pattern_match (runSM (bytes ++ [b1])) b2).2 ∧
    1 ≤ (SlidingBitmask.pattern_match (runSB (bytes ++ [b1])) b2).2 ∧
    1 ≤ (Lut.pattern_match (runLut (bytes ++ [b1])) b2).2 := by
  intro bytes h b1 b2 hb1 h3 hb2
  have hall : ∀ b ∈ bytes ++ [b1], b < 256 := by
    intro b hb
    rcases List.mem_append.mp hb with hx | hx
    · exact h b hx
    · simp at hx
      omega
  obtain ⟨hP, hLP, hpos, -, -⟩ := run_inv (bytes ++ [b1]) hall
  have ePrev : (runSB (bytes ++ [b1])).prev = b1 := by
    rw [runSB_append, sb_pm_eq]
    dsimp only
    exact Nat.mod_eq_of_lt hb1
  have h34 : b1 % 4 = 3 := by
    have e3 : (3 : Nat) = 2 ^ 2 - 1 := rfl
    rw [e3, Nat.and_pow_two_sub_one_eq_mod] at h3
    norm_num at h3
    exact h3
  have hb2' : b2 < 256 := by omega
  refine ⟨?_, ?_, ?_⟩
  · rw [sm_pm_count, hpos, ePrev, h34]
    rw [(step_sm_sb 3 (by omega) b2 hb2').1]
    exact sb3_ge1 b2 hb2
  · rw [sb_pm_count, ePrev, sbCount_mod4, h34]
    exact sb3_ge1 b2 hb2
  · rw [lut_pm_count, hLP, ePrev, lutCount_eq_sb b1 b2 hb2', sbCount_mod4, h34]
    exact sb3_ge1 b2 hb2

theorem boundary_match_detected_witness :
    1 ≤ (StateMachine.pattern_match (runSM (([] : List Nat) ++ [0x03])) 0x00).2 ∧
    1 ≤ (SlidingBitmask.pattern_match (runSB (([] : List Nat) ++ [0x03])) 0x00).2 ∧
    1 ≤ (Lut.pattern_match (runLut (([] : List Nat) ++ [0x03])) 0x00).2 :=
  boundary_match_detected [] (by simp) 0x03 0x00 (by decide) (by decide) (by decide)

/-- C6: byte 0xC0 as the very first byte after construction makes each
matcher return exactly 1 and leaves each total at 1. -/
theorem byte_C0_first_call_one :
    (StateMachine.pattern_match StateMachine.init 0xC0).2 = 1 ∧
    (SlidingBitmask.pattern_match SlidingBitmask.init 0xC0).2 = 1 ∧
    (Lut.pattern_match Lut.init 0xC0).2 = 1 ∧
    (runSM [0xC0]).total_count = 1 ∧
    (runSB [0xC0]).total_count = 1 ∧
    (runLut [0xC0]).total_count = 1 := by decide

/-- C7: feeding any number of 0xFF bytes leaves every matcher's total at
0, and the next call on 0xFF again returns 0, so every call in an
all-ones stream returns 0. -/
theorem all_ones_zero : ∀ n : Nat,
    (runSM (List.replicate n 0xFF)).total_count = 0 ∧
    (runSB (List.replicate n 0xFF)).total_count = 0 ∧
    (runLut (List.replicate n 0xFF)).total_count = 0 ∧
    (StateMachine.pattern_match (runSM (List.replicate n 0xFF)) 0xFF).2 = 0 ∧
    (SlidingBitmask.pattern_match (runSB (List.replicate n 0xFF)) 0xFF).2 = 0 ∧
    (Lut.pattern_match (runLut (List.replicate n 0xFF)) 0xFF).2 = 0 := by
  intro n
  cases n with
  | zero => exact ⟨rfl, rfl, rfl, by decide, by decide, by decide⟩
  | succ m =>
    have eSM : runSM (List.replicate (m + 1) 255) = ⟨2, 0⟩ := by
      rw [List.replicate_succ]
      unfold runSM
      rw [List.foldl_cons]
      have e0 : (StateMachine.pattern_match StateMachine.init 255).1 =
          (⟨2, 0⟩ : StateMachine.State) := by decide
      rw [e0]
      exact sm_ff_steady m 0
    have eSB : runSB (List.replicate (m + 1) 255) = ⟨255, 0⟩ := by
      rw [List.replicate_succ]
      unfold runSB
      rw [List.foldl_cons]
      have e0 : (SlidingBitmask.pattern_match SlidingBitmask.init 255).1 =
          (⟨255, 0⟩ : SlidingBitmask.State) := by decide
      rw [e0]
      exact sb_ff_steady m 0
    have eLut : runLut (List.replicate (m + 1) 255) = ⟨255, 0⟩ := by
      rw [List.replicate_succ]
      unfold runLut
      rw [List.foldl_cons]
      have e0 : (Lut.pattern_match Lut.init 255).1 = (⟨255, 0⟩ : Lut.State) := by decide
      rw [e0]
      exact lut_ff_steady m 0
    refine ⟨?_, ?_, ?_, ?_, ?_, ?_⟩
    · rw [eSM]
    · rw [eSB]
    · rw [eLut]
    · rw [eSM]
      decide
    · rw [eSB]
      decide
    · rw [eLut]
      decide

/-- C8: each matcher's running total starts at 0 at construction, every
call only adds to it, and processing additional bytes never decreases
it. -/
theorem totals_monotone : ∀ (s1 : StateMachine.State) (s2 : SlidingBitmask.State)
    (s3 : Lut.State) (b : Nat) (bytes extra : List Nat),
    s1.total_count ≤ ((StateMachine.pattern_match s1 b).1).total_count ∧
    s2.total_count ≤ ((SlidingBitmask.pattern_match s2 b).1).total_count ∧
    s3.total_count ≤ ((Lut.pattern_match s3 b).1).total_count ∧
    (runSM bytes).total_count ≤ (runSM (bytes ++ extra)).total_count ∧
    (runSB bytes).total_count ≤ (runSB (bytes ++ extra)).total_count ∧
    (runLut bytes).total_count ≤ (runLut (bytes ++ extra)).total_count ∧
    (runSM []).total_count = 0 ∧ (runSB []).total_count = 0 ∧
    (runLut []).total_count = 0 := by
  intro s1 s2 s3 b bytes extra
  refine ⟨?_, ?_, ?_, ?_, ?_, ?_, rfl, rfl, rfl⟩
  · rw [sm_pm_eq]
    exact Nat.le_add_right _ _
  · rw [sb_pm_eq]
    exact Nat.le_add_right _ _
  · rw [lut_pm_eq]
    exact Nat.le_add_right _ _
  · have e : runSM (bytes ++ extra) =
        List.foldl (fun st b => (StateMachine.pattern_match st b).1) (runSM bytes) extra := by
      simp [runSM]
    rw [e]
    exact sm_total_mono extra (runSM bytes)
  · have e : runSB (bytes ++ extra) =
        List.foldl (fun st b => (SlidingBitmask.pattern_match st b).1) (runSB bytes) extra := by
      simp [runSB]
    rw [e]
    exact sb_total_mono extra (runSB bytes)
  · have e : runLut (bytes ++ extra) =
        List.foldl (fun st b => (Lut.pattern_match st b).1) (runLut bytes) extra := by
      simp [runLut]
    rw [e]
    exact lut_total_mono extra (runLut bytes)

/-- C9: for every call of each matcher, the returned count equals the
increase of the running total produced by that call. -/
theorem count_equals_delta : ∀ (s1 : StateMachine.State) (s2 : SlidingBitmask.State)
    (s3 : Lut.State) (b : Nat),
    ((StateMachine.pattern_match s1 b).1).total_count =
      s1.total_count + (StateMachine.pattern_match s1 b).2 ∧
    ((SlidingBitmask.pattern_match s2 b).1).total_count =
      s2.total_count + (SlidingBitmask.pattern_match s2 b).2 ∧
    ((Lut.pattern_match s3 b).1).total_count =
      s3.total_count + (Lut.pattern_match s3 b).2 := by
  intro s1 s2 s3 b
  refine ⟨?_, ?_, ?_⟩
  · rw [sm_pm_eq]
  · rw [sb_pm_eq]
  · rw [lut_pm_eq]

/-- C10: the automaton position of every reachable `StateMachine` state
is in the closed set `{0, 1, 2}`, and every bit transition maps that set
into itself, so the default branch of the switch is unreachable. -/
theorem pos_closed_set :
    (∀ bytes : List Nat, (∀ b ∈ bytes, b < 256) →
      (runSM bytes).pos = 0 ∨ (runSM bytes).pos = 1 ∨ (runSM bytes).pos = 2) ∧
    (∀ (p c : Nat) (b : Bool), p = 0 ∨ p = 1 ∨ p = 2 →
      (StateMachine.bitStep (p, c) b).1 = 0 ∨ (StateMachine.bitStep (p, c) b).1 = 1 ∨
        (StateMachine.bitStep (p, c) b).1 = 2) := by
  constructor
  · intro bytes
    induction bytes using List.reverseRecOn with
    | nil => exact fun _ => Or.inl rfl
    | append_singleton l b ih =>
      intro h
      have hb : b < 256 := h b (by simp)
      have hl : ∀ x ∈ l, x < 256 := fun x hx => h x (by simp [hx])
      have hlt : (runSM l).pos < 3 := by
        rcases ih hl with h0 | h0 | h0 <;> omega
      rw [runSM_append, sm_pm_eq]
      dsimp only
      have := smPos_lt3 (runSM l).pos hlt b hb
      omega
  · intro p c b hp
    rcases hp with rfl | rfl | rfl <;> cases b <;> simp [StateMachine.bitStep]

theorem pos_closed_set_witness :
    ((runSM [0xC0, 0xFF]).pos = 0 ∨ (runSM [0xC0, 0xFF]).pos = 1 ∨
      (runSM [0xC0, 0xFF]).pos = 2) ∧
    ((StateMachine.bitStep (2, 0) false).1 = 0 ∨ (StateMachine.bitStep (2, 0) false).1 = 1 ∨
      (StateMachine.bitStep (2, 0) false).1 = 2) :=
  ⟨pos_closed_set.1 [0xC0, 0xFF] (by decide), pos_closed_set.2 2 0 false (by decide)⟩
